import Mathlib

/-!
Verification of the AI-tutor playback application.

Shallow embedding of the repository's data model and operations:
* `src/types.ts` — the `ExplanationStep` record.
* `src/services/geminiService.ts` — `cleanBlackboardContent` (the board-text
  cleanup, including a faithful model of the JavaScript regex
  `(\$\$[\s\S]*?\$\$|\$[^\n$]*?\$|\\\[[\s\S]*?\\\]|\\\([^\n]*?\\\))` used with
  a global match) and `generateExplanationSteps` (success mapping and the
  synthetic error step of the catch branch).
* `src/services/audioUtils.ts` — `decodeAudioData`, the 16-bit little-endian
  PCM to floating-point sample conversion.  IEEE floats are idealised as
  rationals; the decoded values (k / 32768 with |k| ≤ 2^15) are all exactly
  representable in binary32, so nothing is lost for the claims below.
* `src/unnamed/part_002` — the three `App` variants: playback sequencer
  (auto-advance closure of `playStep`), `handleSubmit`, `handleSeek`,
  `onNext` / `onPrev` handlers, and the `stopCurrentAudio` discipline,
  the latter modelled as a tiny trace semantics over audio handles.
* `src/unnamed/part_000` — the `Blackboard` component's safe read of the
  current step and its empty-list placeholder.
-/

/-- One explanation step (src/types.ts, `ExplanationStep`).  `audioBuffer`
holds the decoded sample list once narration audio has arrived; decoded
samples are modelled as rationals. -/
structure ExplanationStep where
  title : String
  blackboardText : String
  spokenText : String
  audioBuffer : Option (List ℚ) := none
deriving DecidableEq

/-! ### Board-text cleanup (geminiService.ts, `cleanBlackboardContent`)

The JavaScript regex is embedded as a scanner over `List Char`.  The four
alternatives are tried in order at each position, exactly as JS ordered
alternation with non-greedy bodies does: each alternative matches by finding
the *first* possible closing delimiter. -/

/-- Index of the first position `j` with `l[j] = c1` and `l[j+1] = c2`
(overlapping two-character search, as backtracking over a non-greedy
`[\s\S]*?` body produces). -/
def find2 : List Char → Char → Char → Option Nat
  | [], _, _ => none
  | [_], _, _ => none
  | a :: b :: t, c1, c2 =>
    if a = c1 ∧ b = c2 then some 0
    else (find2 (b :: t) c1 c2).map (· + 1)

/-- Index of the first `'$'` in `l`, failing if a newline occurs first:
the closing search of the JS alternative `\$[^\n$]*?\$`. -/
def findDollar : List Char → Option Nat
  | [] => none
  | c :: t =>
    if c = '$' then some 0
    else if c = '\n' then none
    else (findDollar t).map (· + 1)

/-- Like `find2`, but failing once a newline is scanned over: the closing
search of the JS alternative `\\\([^\n]*?\\\)`. -/
def find2NoNL : List Char → Char → Char → Option Nat
  | [], _, _ => none
  | [_], _, _ => none
  | a :: b :: t, c1, c2 =>
    if a = c1 ∧ b = c2 then some 0
    else if a = '\n' then none
    else (find2NoNL (b :: t) c1 c2).map (· + 1)

/-- Anchored match of the cleanup regex at the start of `s`; on success
returns the matched segment and the remaining input.  Branches mirror the
ordered alternation: `$$…$$` first (falling back to `$…$`, which then matches
the two dollars with an empty body, when no closing `$$` exists), then
`$…$`, then `\[…\]`, then `\(…\)`. -/
def matchAt : List Char → Option (List Char × List Char)
  | a :: b :: t =>
    if a = '$' then
      if b = '$' then
        match find2 t '$' '$' with
        | some j => some ('$' :: '$' :: t.take (j + 2), t.drop (j + 2))
        | none => some (['$', '$'], t)
      else
        match findDollar (b :: t) with
        | some j => some ('$' :: (b :: t).take (j + 1), (b :: t).drop (j + 1))
        | none => none
    else if a = '\\' then
      if b = '[' then
        match find2 t '\\' ']' with
        | some j => some ('\\' :: '[' :: t.take (j + 2), t.drop (j + 2))
        | none => none
      else if b = '(' then
        match find2NoNL t '\\' ')' with
        | some j => some ('\\' :: '(' :: t.take (j + 2), t.drop (j + 2))
        | none => none
      else none
    else none
  | _ => none

/-- Fuel-indexed global scan; at every position either a match is emitted and
scanning resumes after it, or the scan advances one character, as
`String.match` with a `/g` regex does.  Each step consumes at least one
character, so fuel `s.length` is always enough. -/
def scanAux : Nat → List Char → List (List Char)
  | 0, _ => []
  | fuel + 1, s =>
    match matchAt s with
    | some (m, r) => m :: scanAux fuel r
    | none =>
      match s with
      | [] => []
      | _ :: t => scanAux fuel t

/-- All segments matched by the cleanup regex, in order
(`raw.match(latexRegex)` in geminiService.ts). -/
def scanMatches (s : List Char) : List (List Char) :=
  scanAux s.length s

/-- Tail worker of the consecutive-duplicate filter: `prev` is the previous
element of the *original* array, against which the JS filter compares. -/
def dedupGo : List Char → List (List Char) → List (List Char)
  | _, [] => []
  | prev, b :: t => if b = prev then dedupGo b t else b :: dedupGo b t

/-- The JS filter `(item, index, arr) => index === 0 || item !== arr[index-1]`
(geminiService.ts lines 34-36): drop every element equal to its predecessor
in the original array. -/
def dedupConsecutive : List (List Char) → List (List Char)
  | [] => []
  | a :: t => a :: dedupGo a t

/-- `Array.prototype.join` with a separator, on character lists. -/
def joinSep (sep : List Char) : List (List Char) → List Char
  | [] => []
  | [x] => x
  | x :: xs => x ++ sep ++ joinSep sep xs

/-- Whitespace stripped by `String.prototype.trim` (ASCII part plus NBSP;
the repository's inputs contain no other Unicode space). -/
def jsWhitespace (c : Char) : Bool :=
  c = ' ' || c = '\t' || c = '\n' || c = '\r' || c = '\x0b' || c = '\x0c' || c = '\xa0'

/-- `String.prototype.trim` on character lists. -/
def trimChars (l : List Char) : List Char :=
  ((l.dropWhile jsWhitespace).reverse.dropWhile jsWhitespace).reverse

/-- Case-insensitive literal prefix removal (one literal alternative of the
JS regex under the `/i` flag): returns the remaining input on success. -/
def stripCI : List Char → List Char → Option (List Char)
  | [], s => some s
  | _ :: _, [] => none
  | p :: ps, c :: cs => if c.toLower = p.toLower then stripCI ps cs else none

/-- One alternative of the form `tag\d+[colons]?`: the tag (case-insensitive),
one or more digits (greedy), then an optional colon drawn from `colons`. -/
def stripNumberedLabel (tag : List Char) (colons : List Char) (s : List Char) :
    Option (List Char) :=
  match stripCI tag s with
  | none => none
  | some r =>
    match r with
    | [] => none
    | c :: cs =>
      if c.isDigit then
        match cs.dropWhile Char.isDigit with
        | [] => some []
        | d :: ds => if d ∈ colons then some ds else some (d :: ds)
      else none

/-- The anchored replace
`trimmed.replace(/^(Step \d+:?|Answer:|Explanation:|步驟 \d+[：:]?)/i, '')`
(geminiService.ts line 23): alternatives tried in order, first match removed,
input returned unchanged when none matches. -/
def stripLeadingLabel (s : List Char) : List Char :=
  match stripNumberedLabel "Step ".data [':'] s with
  | some r => r
  | none =>
    match stripCI "Answer:".data s with
    | some r => r
    | none =>
      match stripCI "Explanation:".data s with
      | some r => r
      | none =>
        match stripNumberedLabel "步驟 ".data ['：', ':'] s with
        | some r => r
        | none => s

/-- The no-match fallback of `cleanBlackboardContent`
(geminiService.ts lines 19-31): trim, strip a leading label, trim again;
empty remainder gives the empty string, a remainder already containing `'$'`
is returned as is, anything else is wrapped in `$` delimiters. -/
def fallbackClean (raw : List Char) : List Char :=
  let t := trimChars (stripLeadingLabel (trimChars raw))
  if t = [] then []
  else if t.contains '$' then t
  else '$' :: (t ++ ['$'])

/-- `cleanBlackboardContent` on character lists (geminiService.ts lines 8-40):
empty input gives empty output; with at least one regex match, consecutive
exact duplicates are dropped and the matches joined by blank lines; otherwise
the fallback runs. -/
def cleanChars (raw : List Char) : List Char :=
  if raw = [] then []
  else
    if scanMatches raw = [] then fallbackClean raw
    else joinSep ['\n', '\n'] (dedupConsecutive (scanMatches raw))

/-- `cleanBlackboardContent` (geminiService.ts lines 8-40). -/
def cleanBlackboardContent (raw : String) : String :=
  String.mk (cleanChars raw.data)

/-- Consecutive-duplicate removal phrased as the spec reads ("dropping
consecutive exact duplicates"), by direct comparison of neighbouring
elements; proved equal to the source's filter below. -/
def specDedup : List (List Char) → List (List Char)
  | [] => []
  | [x] => [x]
  | x :: y :: t => if x = y then specDedup (y :: t) else x :: specDedup (y :: t)

/-- The cleanup as claim C5 words it: extracted segments deduplicated and
joined, and otherwise the trimmed, label-stripped text *always* wrapped in
`$` delimiters.  Second definition written from the claim, for comparison
with `cleanChars`. -/
def cleanupClaimed (raw : List Char) : List Char :=
  if scanMatches raw = [] then
    '$' :: (trimChars (stripLeadingLabel (trimChars raw)) ++ ['$'])
  else joinSep ['\n', '\n'] (specDedup (scanMatches raw))

/-- The cleanup as the amended claim words it: like `cleanupClaimed`, except
that in the no-match case an empty remainder yields the empty string and a
remainder already containing `'$'` is returned unwrapped. -/
def cleanupAmendedSpec (raw : List Char) : List Char :=
  if scanMatches raw = [] then
    let t := trimChars (stripLeadingLabel (trimChars raw))
    if t = [] then [] else if t.contains '$' then t else '$' :: (t ++ ['$'])
  else joinSep ['\n', '\n'] (specDedup (scanMatches raw))

/-! ### Step generation gateway (geminiService.ts, `generateExplanationSteps`)

The network call and JSON parse are modelled by an `Except` input: `.ok`
carries the parsed step array, `.error` stands for any thrown failure
(network, parse, schema).  The function is total — no fault propagates. -/

/-- `generateExplanationSteps` (geminiService.ts lines 94-136): on success,
every step's board text is post-processed with `cleanBlackboardContent`; on
any failure the catch branch returns the single synthetic error step. -/
def generateExplanationSteps (response : Except String (List ExplanationStep)) :
    List ExplanationStep :=
  match response with
  | .ok steps =>
      steps.map fun st => { st with blackboardText := cleanBlackboardContent st.blackboardText }
  | .error _ =>
      [{ title := "錯誤",
         blackboardText := "$\\text\x7bError generating steps.\x7d$",
         spokenText := "抱歉，系統發生錯誤，請稍後再試。" }]

/-! ### Application state and sequencer (src/unnamed/part_002) -/

/-- The `App` component state: `steps`, `currentStepIndex`, `isPlaying`, and
`audioSourceRef.current` abstracted as an optional handle id. -/
structure AppState where
  steps : List ExplanationStep
  currentStepIndex : Nat
  isPlaying : Bool
  audioSource : Option Nat := none
deriving DecidableEq

/-- The auto-advance decision shared by the audio-end closure (after the
1.5 s pause) and the no-audio fallback timeout (3-4 s) of `playStep`
(part_002 lines 70-102 and 583-605):
`if (currentStepIndex < steps.length - 1 && isPlaying) index+1 else stop`. -/
def autoAdvance (s : AppState) : AppState :=
  if s.currentStepIndex < s.steps.length - 1 ∧ s.isPlaying = true then
    { s with currentStepIndex := s.currentStepIndex + 1 }
  else
    { s with isPlaying := false }

/-- The `onNext` handler passed to `PlayerControls`
(part_002 lines 719-725, identical in all variants). -/
def onNext (s : AppState) : AppState :=
  if s.currentStepIndex < s.steps.length - 1 then
    { s with currentStepIndex := s.currentStepIndex + 1, isPlaying := true }
  else s

/-- The `onPrev` handler passed to `PlayerControls`
(part_002 lines 726-731, identical in all variants). -/
def onPrev (s : AppState) : AppState :=
  if 0 < s.currentStepIndex then
    { s with currentStepIndex := s.currentStepIndex - 1, isPlaying := true }
  else s

/-- `handleSeek` of the first `App` variant (part_002 lines 171-174):
stop the in-flight audio, then set the index.  `isPlaying` is not touched. -/
def handleSeek (s : AppState) (stepIndex : Nat) : AppState :=
  { s with currentStepIndex := stepIndex, audioSource := none }

/-- `handleSeek` of the second `App` variant (part_002 lines 420-423);
its body is identical to the first variant's. -/
def handleSeekB (s : AppState) (stepIndex : Nat) : AppState :=
  { s with currentStepIndex := stepIndex, audioSource := none }

/-- `handleSeek` of the third `App` variant (part_002 lines 655-660);
its body is identical to the first variant's. -/
def handleSeekC (s : AppState) (stepIndex : Nat) : AppState :=
  { s with currentStepIndex := stepIndex, audioSource := none }

/-- `handleSubmit` (part_002 lines 617-653): reset the index to 0, replace
the steps with the gateway result, start playing.  Audio enrichment mutates
step fields only, never the length, and is irrelevant to the index claims. -/
def handleSubmit (s : AppState) (response : Except String (List ExplanationStep)) :
    AppState :=
  { s with steps := generateExplanationSteps response,
           currentStepIndex := 0,
           isPlaying := true,
           audioSource := none }

/-- Position invariant of the spec: whenever the step list is non-empty the
index is in `[0, length-1]`. -/
def inBounds (s : AppState) : Prop :=
  s.steps ≠ [] → s.currentStepIndex < s.steps.length

/-! ### Audio-handle exclusivity (stopCurrentAudio / playStep / handleSeek)

A small trace semantics: the state carries `audioSourceRef.current` and the
set of handles actually playing; the primitives are the source's
`stopCurrentAudio` and the `playAudio` start.  Each App operation compiles
to the primitive sequence its body performs, in order. -/

/-- Audio-side state: the ref and the multiset of currently playing handles. -/
structure AudioSys where
  ref : Option Nat
  active : List Nat
deriving DecidableEq

/-- The two audio primitives appearing in the source: `stopCurrentAudio`
(part_002 lines 562-567) and the `playAudio` start (audioUtils.ts line 39). -/
inductive AudioPrim where
  | stopCur : AudioPrim
  | startNew : Nat → AudioPrim
deriving DecidableEq

/-- Effect of one primitive: `stopCur` stops the handle held by the ref (if
any) and clears the ref; `startNew h` stores `h` in the ref and starts it. -/
def stepPrim (σ : AudioSys) : AudioPrim → AudioSys
  | .stopCur =>
    match σ.ref with
    | some h => { ref := none, active := σ.active.filter (· != h) }
    | none => σ
  | .startNew h => { ref := some h, active := σ.active ++ [h] }

/-- The audio-relevant App operations. -/
inductive AudioOp where
  | playWithAudio : Nat → AudioOp
  | playNoAudio : AudioOp
  | pauseCleanup : AudioOp
  | seekOp : AudioOp

/-- Primitive sequence of each operation, read off the source: `playStep`
with audio stops then starts (part_002 lines 576-595); `playStep` without
audio stops and arms a timeout (lines 596-605); the paused/empty guard stops
(lines 571-574); `handleSeek` stops (lines 655-658). -/
def opPrims : AudioOp → List AudioPrim
  | .playWithAudio h => [.stopCur, .startNew h]
  | .playNoAudio => [.stopCur]
  | .pauseCleanup => [.stopCur]
  | .seekOp => [.stopCur]

/-- Concatenated primitives of an operation sequence. -/
def opsPrims : List AudioOp → List AudioPrim
  | [] => []
  | o :: os => opPrims o ++ opsPrims os

/-- Every state reached while executing a primitive sequence, the initial
state included. -/
def traceStates (σ : AudioSys) : List AudioPrim → List AudioSys
  | [] => [σ]
  | p :: ps => σ :: traceStates (stepPrim σ p) ps

/-- Audio invariant: exactly the handle held by the ref is playing. -/
def AudioInv (σ : AudioSys) : Prop :=
  σ.active = σ.ref.toList

/-! ### Blackboard view (src/unnamed/part_000, `Blackboard`) -/

/-- What the board renders that depends on the current step: the header
title, the text fed to the typewriter, and whether the waiting placeholder
shows. -/
structure BoardView where
  headerTitle : String
  currentText : String
  showWaiting : Bool
deriving DecidableEq

/-- The `Blackboard` read of the current step (part_000 lines 23-25, 90 and
145-149): `steps[currentStepIndex]` is an optional lookup,
`currentStep?.blackboardText || ''` defaults to the empty string, the header
falls back to `'今日課程'`, and the placeholder shows exactly when the list
is empty. -/
def blackboardView (steps : List ExplanationStep) (currentStepIndex : Nat) : BoardView :=
  { headerTitle :=
      match steps[currentStepIndex]? with
      | some st => "Step " ++ toString (currentStepIndex + 1) ++ ": " ++ st.title
      | none => "今日課程"
  , currentText :=
      match steps[currentStepIndex]? with
      | some st => st.blackboardText
      | none => ""
  , showWaiting := steps.isEmpty }

/-! ### PCM decode (src/services/audioUtils.ts, `decodeAudioData`)

The base64 `atob` stage is outside the model: the input is the raw byte
list.  `Int16Array(bytes.buffer)` reads consecutive little-endian byte
pairs as signed 16-bit integers; each channel sample is the integer divided
by 32768. -/

/-- Consecutive byte pairs of the buffer, as `Int16Array` views it
(little-endian platform order). -/
def pairBytes : List Nat → List (Nat × Nat)
  | b0 :: b1 :: t => (b0, b1) :: pairBytes t
  | _ => []

/-- A little-endian byte pair as a signed 16-bit integer. -/
def bytesToInt16 (b0 b1 : Nat) : Int :=
  let u := b0 + 256 * b1
  if u < 32768 then (u : Int) else (u : Int) - 65536

/-- The `dataInt16` view of the byte buffer (audioUtils.ts line 14). -/
def int16Samples (bytes : List Nat) : List Int :=
  (pairBytes bytes).map fun p => bytesToInt16 p.1 p.2

/-- The per-channel fill loop (audioUtils.ts lines 18-24):
`channelData[i] = dataInt16[i * numChannels + channel] / 32768.0` for
`i < frameCount` with `frameCount = dataInt16.length / numChannels`. -/
def channelSamples (data : List Int) (numChannels channel : Nat) : List ℚ :=
  (List.range (data.length / numChannels)).map fun i =>
    ((data.getD (i * numChannels + channel) 0 : Int) : ℚ) / 32768

/-- `decodeAudioData` from the byte stage on: the samples of one channel of
the decoded buffer. -/
def decodeAudioData (bytes : List Nat) (numChannels channel : Nat) : List ℚ :=
  channelSamples (int16Samples bytes) numChannels channel

/-- Little-endian two's-complement encoding of one 16-bit sample, the
inverse direction used to state the round-trip claim. -/
def encodeInt16LE (s : Int) : List Nat :=
  [(s % 65536).toNat % 256, (s % 65536).toNat / 256]

/-- Encoding of a whole sample sequence as a mono PCM byte stream. -/
def encodePCM : List Int → List Nat
  | [] => []
  | s :: t => encodeInt16LE s ++ encodePCM t

/-! ### Concrete states used to exercise theorems on explicit inputs -/

/-- A sample explanation step. -/
def sampleStep : ExplanationStep :=
  { title := "移項", blackboardText := "$3x=21-9$", spokenText := "先移項。" }

/-- A second sample explanation step. -/
def sampleStep2 : ExplanationStep :=
  { title := "結果", blackboardText := "$x=4$", spokenText := "算出結果。" }

/-- A playing state at the last (and only) step. -/
def lastState : AppState :=
  { steps := [sampleStep], currentStepIndex := 0, isPlaying := true }

/-- A paused state at the last step of a two-step list. -/
def pausedLastState : AppState :=
  { steps := [sampleStep, sampleStep2], currentStepIndex := 1, isPlaying := false }

/-- A paused state at the first step of a two-step list. -/
def pausedFirstState : AppState :=
  { steps := [sampleStep, sampleStep2], currentStepIndex := 0, isPlaying := false }

/-! ### Predicates used by the cleanup idempotence proof -/

/-- A segment behaves, at any later rescan, exactly as it matched the first
time: prepended to any suffix it matches itself and leaves the suffix
(for the bare `$$` segment the suffix must contain no `$$` pair, which the
joined output guarantees). -/
def SegOK (d : List Char) : Prop :=
  ∀ s : List Char, (d = ['$', '$'] → find2 s '$' '$' = none) →
    matchAt (d ++ s) = some (d, s)

/-- Scan-output invariant: every segment rescans to itself, and a bare `$$`
segment is followed only by segments without a `$$` pair (the scan produced
`$$` exactly because no such pair remained). -/
def JoinGood : List (List Char) → Prop
  | [] => True
  | d :: rest =>
      SegOK d ∧ (d = ['$', '$'] → ∀ e ∈ rest, find2 e '$' '$' = none) ∧ JoinGood rest

/-- No two adjacent elements are equal. -/
def AdjDistinct : List (List Char) → Prop
  | [] => True
  | [_] => True
  | x :: y :: t => x ≠ y ∧ AdjDistinct (y :: t)

/-- Inversion view of a successful `matchAt`: which alternative fired, with
the closing-search evidence. -/
inductive MatchSpec : List Char → List Char → List Char → Prop
  | block (t : List Char) (j : Nat) (hf : find2 t '$' '$' = some j) :
      MatchSpec ('$' :: '$' :: t) ('$' :: '$' :: t.take (j + 2)) (t.drop (j + 2))
  | ddFallback (t : List Char) (hf : find2 t '$' '$' = none) :
      MatchSpec ('$' :: '$' :: t) ['$', '$'] t
  | inline (b : Char) (t : List Char) (j : Nat) (hb : b ≠ '$')
      (hf : findDollar (b :: t) = some j) :
      MatchSpec ('$' :: b :: t) ('$' :: (b :: t).take (j + 1)) ((b :: t).drop (j + 1))
  | display (t : List Char) (j : Nat) (hf : find2 t '\\' ']' = some j) :
      MatchSpec ('\\' :: '[' :: t) ('\\' :: '[' :: t.take (j + 2)) (t.drop (j + 2))
  | paren (t : List Char) (j : Nat) (hf : find2NoNL t '\\' ')' = some j) :
      MatchSpec ('\\' :: '(' :: t) ('\\' :: '(' :: t.take (j + 2)) (t.drop (j + 2))

/-! ## Sequencer index lemmas -/

/-- Auto-advance keeps the index in bounds. -/
theorem autoAdvance_inBounds (s : AppState) (h : inBounds s) :
    inBounds (autoAdvance s) := by
  unfold inBounds autoAdvance at *
  split
  · rename_i hc
    intro hne
    simp only at hne ⊢
    have := h hne
    omega
  · intro hne
    simp only at hne ⊢
    exact h hne

/-- `onNext` keeps the index in bounds. -/
theorem onNext_inBounds (s : AppState) (h : inBounds s) :
    inBounds (onNext s) := by
  unfold inBounds onNext at *
  split
  · rename_i hc
    intro hne
    simp only at hne ⊢
    omega
  · exact h

/-- `onPrev` keeps the index in bounds. -/
theorem onPrev_inBounds (s : AppState) (h : inBounds s) :
    inBounds (onPrev s) := by
  unfold inBounds onPrev at *
  split
  · rename_i hc
    intro hne
    simp only at hne ⊢
    have := h hne
    omega
  · exact h

/-- A submit reset keeps the index in bounds (it resets it to 0). -/
theorem handleSubmit_inBounds (s : AppState)
    (response : Except String (List ExplanationStep)) :
    inBounds (handleSubmit s response) := by
  unfold inBounds handleSubmit
  intro hne
  simp only at hne ⊢
  exact List.length_pos.mpr hne

/-- A seek whose target respects the slider bound `max(0, length-1)` keeps
the index in bounds. -/
theorem handleSeek_inBounds (s : AppState) (i : Nat)
    (hi : i ≤ s.steps.length - 1) : inBounds (handleSeek s i) := by
  unfold inBounds handleSeek
  intro hne
  simp only at hne ⊢
  have := List.length_pos.mpr hne
  omega

/-- Claim C1: for every non-empty step list, an auto-advance while Playing
(natural audio end plus the fixed pause, or the no-audio fallback timeout)
sets the index to `min(index+1, length-1)`, and `isPlaying` becomes false
exactly when the advance happens at the last step (`index = length-1`).
The in-bounds hypothesis holds whenever an advance closure is armed:
`playStep` returns early when `steps[currentStepIndex]` is undefined. -/
theorem c1_auto_advance (s : AppState) (hne : s.steps ≠ [])
    (hp : s.isPlaying = true) (hi : s.currentStepIndex < s.steps.length) :
    (autoAdvance s).currentStepIndex = min (s.currentStepIndex + 1) (s.steps.length - 1) ∧
    ((autoAdvance s).isPlaying = false ↔ s.currentStepIndex = s.steps.length - 1) := by
  have hlen : 0 < s.steps.length := List.length_pos.mpr hne
  unfold autoAdvance
  by_cases h : s.currentStepIndex < s.steps.length - 1
  · rw [if_pos ⟨h, hp⟩]
    constructor
    · simp only
      omega
    · simp only [hp]
      constructor
      · intro hfalse
        exact absurd hfalse (by simp)
      · intro heq
        omega
  · rw [if_neg (fun hc => h hc.1)]
    constructor
    · simp only
      omega
    · simp only
      constructor
      · intro _
        omega
      · intro _
        trivial

/-- Witness for C1 at an explicit state: one playing step, index 0. -/
theorem c1_auto_advance_witness :
    (autoAdvance lastState).currentStepIndex =
      min (lastState.currentStepIndex + 1) (lastState.steps.length - 1) ∧
    ((autoAdvance lastState).isPlaying = false ↔
      lastState.currentStepIndex = lastState.steps.length - 1) :=
  c1_auto_advance lastState (by decide) rfl (by decide)

/-- Claim C4: whenever the step list is non-empty the playback index stays
in `[0, length-1]` after every operation — submit reset, auto-advance,
next, previous, and seek (whose argument the slider bounds by
`max(0, length-1)`, see PlayerControls.tsx lines 29-37). -/
theorem c4_index_in_bounds (s : AppState) (h : inBounds s) :
    inBounds (autoAdvance s) ∧ inBounds (onNext s) ∧ inBounds (onPrev s) ∧
    (∀ response, inBounds (handleSubmit s response)) ∧
    (∀ i, i ≤ s.steps.length - 1 → inBounds (handleSeek s i)) :=
  ⟨autoAdvance_inBounds s h, onNext_inBounds s h, onPrev_inBounds s h,
   fun response => handleSubmit_inBounds s response,
   fun i hi => handleSeek_inBounds s i hi⟩

/-- Witness for C4 at an explicit state. -/
theorem c4_index_in_bounds_witness :
    inBounds (autoAdvance lastState) ∧ inBounds (onNext lastState) ∧
    inBounds (onPrev lastState) ∧
    (∀ response, inBounds (handleSubmit lastState response)) ∧
    (∀ i, i ≤ lastState.steps.length - 1 → inBounds (handleSeek lastState i)) :=
  c4_index_in_bounds lastState (fun _ => by decide)

/-- Claim C8 as stated is false: in a paused state at the last step `onNext`
is a no-op and leaves the Playing flag false (and symmetrically `onPrev` at
index 0), so Next/Prev do not force Playing true in every state. -/
theorem c8_counterexample :
    (onNext pausedLastState).isPlaying = false ∧
    (onNext pausedLastState).currentStepIndex = 1 ∧
    (onPrev pausedFirstState).isPlaying = false ∧
    (onPrev pausedFirstState).currentStepIndex = 0 := by decide

/-- Claim C8 (amended): when movement is possible (`index < length-1` for
Next, `index > 0` for Prev) the handler moves the index by one and forces
Playing true; at the boundary it leaves the state unchanged (there the
button is disabled); both preserve the bounds invariant. -/
theorem c8_next_prev_amended (s : AppState) :
    (s.currentStepIndex < s.steps.length - 1 →
      onNext s = { s with currentStepIndex := s.currentStepIndex + 1, isPlaying := true }) ∧
    (¬ s.currentStepIndex < s.steps.length - 1 → onNext s = s) ∧
    (0 < s.currentStepIndex →
      onPrev s = { s with currentStepIndex := s.currentStepIndex - 1, isPlaying := true }) ∧
    (s.currentStepIndex = 0 → onPrev s = s) ∧
    (inBounds s → inBounds (onNext s) ∧ inBounds (onPrev s)) := by
  refine ⟨?_, ?_, ?_, ?_, ?_⟩
  · intro hlt
    unfold onNext
    rw [if_pos hlt]
  · intro hge
    unfold onNext
    rw [if_neg hge]
  · intro hpos
    unfold onPrev
    rw [if_pos hpos]
  · intro hzero
    unfold onPrev
    rw [if_neg (by omega)]
  · intro h
    exact ⟨onNext_inBounds s h, onPrev_inBounds s h⟩

/-- Witness for the amended C8 at an explicit state. -/
theorem c8_next_prev_amended_witness :
    onNext pausedFirstState =
      { pausedFirstState with currentStepIndex := 1, isPlaying := true } :=
  (c8_next_prev_amended pausedFirstState).1 (by decide)

/-- Claim C9: in every `App` variant, seek only stops the in-flight audio
and changes the index; the Playing flag and the step list are untouched. -/
theorem c9_seek_preserves_playing (s : AppState) (i : Nat) :
    (handleSeek s i).isPlaying = s.isPlaying ∧ (handleSeek s i).steps = s.steps ∧
    (handleSeek s i).currentStepIndex = i ∧ (handleSeek s i).audioSource = none ∧
    (handleSeekB s i).isPlaying = s.isPlaying ∧ (handleSeekB s i).steps = s.steps ∧
    (handleSeekB s i).currentStepIndex = i ∧ (handleSeekB s i).audioSource = none ∧
    (handleSeekC s i).isPlaying = s.isPlaying ∧ (handleSeekC s i).steps = s.steps ∧
    (handleSeekC s i).currentStepIndex = i ∧ (handleSeekC s i).audioSource = none :=
  ⟨rfl, rfl, rfl, rfl, rfl, rfl, rfl, rfl, rfl, rfl, rfl, rfl⟩

/-! ## Blackboard safety (claim C10) -/

/-- Claim C10 as stated is false: with a non-empty step list and an
out-of-bounds index the board text is empty, but the waiting placeholder is
not rendered — it shows only when the list itself is empty. -/
theorem c10_counterexample :
    (blackboardView [sampleStep] 5).currentText = "" ∧
    (blackboardView [sampleStep] 5).showWaiting = false := by decide

/-- Claim C10 (amended): the board reads the current step totally — a
missing step (out-of-bounds index or empty list) yields the empty board
text and the fallback header, and the waiting placeholder renders exactly
when the step list is empty. -/
theorem c10_board_safe_amended (steps : List ExplanationStep) (i : Nat) :
    (steps.length ≤ i →
      (blackboardView steps i).currentText = "" ∧
      (blackboardView steps i).headerTitle = "今日課程") ∧
    ((blackboardView steps i).showWaiting = true ↔ steps = []) := by
  constructor
  · intro hle
    have hnone : steps[i]? = none := List.getElem?_eq_none hle
    simp [blackboardView, hnone]
  · simp [blackboardView, List.isEmpty_iff]

/-- Witness for the amended C10 at an explicit input. -/
theorem c10_board_safe_amended_witness :
    (blackboardView [sampleStep] 5).currentText = "" ∧
    (blackboardView [sampleStep] 5).headerTitle = "今日課程" :=
  (c10_board_safe_amended [sampleStep] 5).1 (by decide)

/-! ## Error step (claim C3) -/

/-- Claim C3 as stated is false: the synthetic error step's board text and
its narration text are two *different* fixed messages, not the same fixed
apology. -/
theorem c3_counterexample :
    (generateExplanationSteps (Except.error "network failure")).map
        (fun st => st.blackboardText) ≠
      (generateExplanationSteps (Except.error "network failure")).map
        (fun st => st.spokenText) := by decide

/-- Claim C3 (amended): on every generation failure the result is exactly
one synthetic step titled 錯誤, whose board text is the fixed LaTeX error
message and whose narration text is the fixed apology (two distinct fixed
messages); the function is total, so no fault propagates to the caller. -/
theorem c3_error_step_amended (err : String) :
    generateExplanationSteps (Except.error err) =
      [{ title := "錯誤",
         blackboardText := "$\\text\x7bError generating steps.\x7d$",
         spokenText := "抱歉，系統發生錯誤，請稍後再試。",
         audioBuffer := none }] := rfl

/-! ## Audio exclusivity (claim C2) -/

/-- Under the audio invariant, at most one handle is playing. -/
theorem audioInv_len_le_one (σ : AudioSys) (h : AudioInv σ) :
    σ.active.length ≤ 1 := by
  unfold AudioInv at h
  rw [h]
  cases σ.ref <;> simp [Option.toList]

/-- Under the invariant, `stopCurrentAudio` leaves no handle playing. -/
theorem stopCur_eq (σ : AudioSys) (h : AudioInv σ) :
    stepPrim σ .stopCur = ⟨none, []⟩ := by
  unfold AudioInv at h
  obtain ⟨r, a⟩ := σ
  cases r with
  | none =>
    simp only [Option.toList] at h
    simp [stepPrim, h]
  | some x =>
    simp only [Option.toList] at h
    subst h
    simp [stepPrim, List.filter]

/-- Claim C2: starting from a state satisfying the audio invariant, every
sequence of App operations (playback-loop starts, no-audio playback, pause
cleanup, seeks) keeps at most one handle actively playing at *every*
intermediate point of the primitive trace, because each operation stops the
previous handle before any new one may start. -/
theorem c2_single_active_audio (ops : List AudioOp) :
    ∀ σ : AudioSys, AudioInv σ →
      ((traceStates σ (opsPrims ops)).all fun σ' => decide (σ'.active.length ≤ 1)) = true := by
  induction ops with
  | nil =>
    intro σ h
    simp [opsPrims, traceStates, audioInv_len_le_one σ h]
  | cons o os ih =>
    intro σ h
    have hσ : σ.active.length ≤ 1 := audioInv_len_le_one σ h
    cases o with
    | playWithAudio hdl =>
      simp only [opsPrims, opPrims, List.cons_append, List.nil_append, traceStates]
      rw [stopCur_eq σ h]
      have hstart : stepPrim ⟨none, []⟩ (.startNew hdl) = ⟨some hdl, [hdl]⟩ := rfl
      rw [hstart]
      simp only [List.all_cons, Bool.and_eq_true, decide_eq_true_eq]
      exact ⟨hσ, by simp, by
        have := ih ⟨some hdl, [hdl]⟩ rfl
        simpa using this⟩
    | playNoAudio =>
      simp only [opsPrims, opPrims, List.cons_append, List.nil_append, traceStates]
      rw [stopCur_eq σ h]
      simp only [List.all_cons, Bool.and_eq_true, decide_eq_true_eq]
      exact ⟨hσ, by
        have := ih ⟨none, []⟩ rfl
        simpa using this⟩
    | pauseCleanup =>
      simp only [opsPrims, opPrims, List.cons_append, List.nil_append, traceStates]
      rw [stopCur_eq σ h]
      simp only [List.all_cons, Bool.and_eq_true, decide_eq_true_eq]
      exact ⟨hσ, by
        have := ih ⟨none, []⟩ rfl
        simpa using this⟩
    | seekOp =>
      simp only [opsPrims, opPrims, List.cons_append, List.nil_append, traceStates]
      rw [stopCur_eq σ h]
      simp only [List.all_cons, Bool.and_eq_true, decide_eq_true_eq]
      exact ⟨hσ, by
        have := ih ⟨none, []⟩ rfl
        simpa using this⟩

/-- Witness for C2: a concrete operation sequence from the silent state. -/
theorem c2_single_active_audio_witness :
    ((traceStates ⟨none, []⟩
        (opsPrims [.playWithAudio 1, .seekOp, .playWithAudio 2, .playNoAudio])).all
      fun σ' => decide (σ'.active.length ≤ 1)) = true :=
  c2_single_active_audio [.playWithAudio 1, .seekOp, .playWithAudio 2, .playNoAudio]
    ⟨none, []⟩ rfl

/-! ## PCM decode (claim C7) -/

/-- Decoding the little-endian two's-complement encoding of an in-range
16-bit sample gives the sample back. -/
theorem bytesToInt16_encode (s : Int) (h1 : -32768 ≤ s) (h2 : s < 32768) :
    bytesToInt16 ((s % 65536).toNat % 256) ((s % 65536).toNat / 256) = s := by
  simp only [bytesToInt16]
  split <;> omega

/-- The `Int16Array` view of an encoded sample sequence is that sequence. -/
theorem int16Samples_encodePCM (samples : List Int)
    (h : ∀ s ∈ samples, -32768 ≤ s ∧ s < 32768) :
    int16Samples (encodePCM samples) = samples := by
  induction samples with
  | nil => rfl
  | cons a t ih =>
    have ha := h a (by simp)
    have hrec := ih fun s hs => h s (by simp [hs])
    simp only [encodePCM, encodeInt16LE, List.cons_append, List.nil_append]
    simp only [int16Samples, pairBytes, List.map_cons] at *
    rw [bytesToInt16_encode a ha.1 ha.2, hrec]

/-- The channel-fill loop over a range of indices is a plain map when read
through `getD`. -/
theorem range_map_getD (data : List Int) (f : Int → ℚ) :
    (List.range data.length).map (fun i => f (data.getD i 0)) = data.map f := by
  induction data with
  | nil => rfl
  | cons a t ih =>
    rw [List.length_cons, List.range_succ_eq_map, List.map_cons, List.map_map,
      List.map_cons]
    have hcomp :
        List.map ((fun i => f ((a :: t).getD i 0)) ∘ Nat.succ) (List.range t.length) =
          List.map (fun i => f (t.getD i 0)) (List.range t.length) := by
      apply List.map_congr_left
      intro i _
      simp [Function.comp, List.getD_cons_succ]
    rw [hcomp, ih]
    simp [List.getD_cons_zero]

/-- For mono audio the channel loop reads every sample once, in order. -/
theorem channelSamples_mono (data : List Int) :
    channelSamples data 1 0 = data.map fun (s : Int) => (s : ℚ) / 32768 := by
  unfold channelSamples
  simp only [Nat.div_one, Nat.mul_one, Nat.add_zero]
  exact range_map_getD data fun s => (s : ℚ) / 32768

/-- Claim C7: every 16-bit little-endian signed PCM sample `s` of a mono
payload decodes to exactly `s / 32768` (floats idealised as rationals, in
which all these values are exactly representable), so a known sample
sequence round-trips; in particular 16384 decodes to 1/2. -/
theorem c7_pcm_decode_roundtrip (samples : List Int)
    (h : ∀ s ∈ samples, -32768 ≤ s ∧ s < 32768) :
    decodeAudioData (encodePCM samples) 1 0 = samples.map fun (s : Int) => (s : ℚ) / 32768 := by
  unfold decodeAudioData
  rw [int16Samples_encodePCM samples h, channelSamples_mono]

/-- Witness for C7: the sample 16384 decodes to 1/2. -/
theorem c7_pcm_decode_roundtrip_witness :
    decodeAudioData (encodePCM [16384]) 1 0 = [(16384 : ℚ) / 32768] ∧
    (16384 : ℚ) / 32768 = 1 / 2 :=
  ⟨c7_pcm_decode_roundtrip [16384] (by decide), by norm_num⟩

/-! ## Cleanup scanner lemmas (claims C5 and C6) -/

/-- A pair not found in a list is not found in its tail. -/
theorem find2_cons_none {a : Char} {l : List Char} {c1 c2 : Char}
    (h : find2 (a :: l) c1 c2 = none) : find2 l c1 c2 = none := by
  cases l with
  | nil => rfl
  | cons b t =>
    simp only [find2] at h
    split at h
    · simp at h
    · rwa [Option.map_eq_none'] at h

/-- A pair not found in an append is not found in the left part. -/
theorem find2_append_left_none {c1 c2 : Char} {y : List Char} :
    ∀ {x : List Char}, find2 (x ++ y) c1 c2 = none → find2 x c1 c2 = none := by
  intro x
  induction x with
  | nil => intro _; rfl
  | cons a x' ih =>
    intro h
    cases x' with
    | nil => rfl
    | cons b t =>
      simp only [List.cons_append, find2] at h ⊢
      split at h
      · simp at h
      · rename_i hpair
        rw [if_neg hpair, Option.map_eq_none']
        rw [Option.map_eq_none'] at h
        exact ih h

/-- A pair not found in an append is not found in the right part. -/
theorem find2_append_right_none {c1 c2 : Char} {y : List Char} :
    ∀ {x : List Char}, find2 (x ++ y) c1 c2 = none → find2 y c1 c2 = none := by
  intro x
  induction x with
  | nil => intro h; exact h
  | cons a x' ih => intro h; exact ih (find2_cons_none h)

/-- Prepending a non-dollar character cannot create a `$$` pair. -/
theorem find2_cons_head_none {c : Char} {l : List Char} (hc : c ≠ '$')
    (h : find2 l '$' '$' = none) : find2 (c :: l) '$' '$' = none := by
  cases l with
  | nil => rfl
  | cons b t =>
    simp only [find2]
    rw [if_neg (fun hp => hc hp.1), Option.map_eq_none']
    exact h

/-- Prepending any character before a newline cannot create a `$$` pair. -/
theorem find2_cons_nl_none {a : Char} {l : List Char}
    (h : find2 ('\n' :: l) '$' '$' = none) :
    find2 (a :: '\n' :: l) '$' '$' = none := by
  simp only [find2]
  rw [if_neg (fun hp => absurd hp.2 (by decide)), Option.map_eq_none']
  exact h

/-- The blank-line separator contains and creates no `$$` pair. -/
theorem find2_nl2_none {y : List Char} (hy : find2 y '$' '$' = none) :
    find2 ('\n' :: '\n' :: y) '$' '$' = none :=
  find2_cons_head_none (by decide) (find2_cons_head_none (by decide) hy)

/-- Joining two `$$`-free pieces with a blank line stays `$$`-free. -/
theorem find2_append_nl2_none {y : List Char} (hy : find2 y '$' '$' = none) :
    ∀ {x : List Char}, find2 x '$' '$' = none →
      find2 (x ++ '\n' :: '\n' :: y) '$' '$' = none := by
  intro x
  induction x with
  | nil => intro _; exact find2_nl2_none hy
  | cons a x' ih =>
    intro h
    cases x' with
    | nil => exact find2_cons_nl_none (find2_nl2_none hy)
    | cons b t =>
      have hbt : find2 (b :: t) '$' '$' = none := find2_cons_none h
      have hpair : ¬(a = '$' ∧ b = '$') := fun hp => by
        simp [find2, if_pos hp] at h
      simp only [List.cons_append, find2]
      rw [if_neg hpair, Option.map_eq_none']
      exact ih hbt

/-- Unfolding equation of `joinSep` on a two-or-more-element list. -/
theorem joinSep_cons_cons (sep d d' : List Char) (t : List (List Char)) :
    joinSep sep (d :: d' :: t) = d ++ sep ++ joinSep sep (d' :: t) := rfl

/-- A blank-line join of `$$`-free segments is `$$`-free. -/
theorem find2_joinSep_none :
    ∀ {D : List (List Char)}, (∀ e ∈ D, find2 e '$' '$' = none) →
      find2 (joinSep ['\n', '\n'] D) '$' '$' = none := by
  intro D
  induction D with
  | nil => intro _; rfl
  | cons d D' ih =>
    intro h
    cases D' with
    | nil => exact h d (by simp)
    | cons d' t =>
      have hj : find2 (joinSep ['\n', '\n'] (d' :: t)) '$' '$' = none :=
        ih fun e he => h e (by simp [he])
      rw [joinSep_cons_cons]
      simpa using find2_append_nl2_none hj (h d (by simp))

/-- A found pair lies inside the list. -/
theorem find2_some_lt {c1 c2 : Char} :
    ∀ {t : List Char} {j : Nat}, find2 t c1 c2 = some j → j + 1 < t.length := by
  intro t
  induction t with
  | nil => intro j h; simp [find2] at h
  | cons a t' ih =>
    intro j h
    cases t' with
    | nil => simp [find2] at h
    | cons b t'' =>
      simp only [find2] at h
      split at h
      · rw [Option.some.injEq] at h
        subst h
        simp
      · rw [Option.map_eq_some'] at h
        obtain ⟨j', hj', rfl⟩ := h
        have := ih hj'
        simp only [List.length_cons] at this ⊢
        omega

/-- The first pair position is unchanged when everything past the match is
replaced by an arbitrary suffix. -/
theorem find2_take_stable {c1 c2 : Char} :
    ∀ {t : List Char} {j : Nat}, find2 t c1 c2 = some j →
      ∀ (s : List Char), find2 (t.take (j + 2) ++ s) c1 c2 = some j := by
  intro t
  induction t with
  | nil => intro j h; simp [find2] at h
  | cons a t' ih =>
    intro j h s
    cases t' with
    | nil => simp [find2] at h
    | cons b t'' =>
      simp only [find2] at h
      split at h
      · rename_i hpair
        rw [Option.some.injEq] at h
        subst h
        simp only [List.take_succ_cons, List.take_zero, List.cons_append,
          List.nil_append]
        simp [find2, if_pos hpair]
      · rename_i hpair
        rw [Option.map_eq_some'] at h
        obtain ⟨j', hj', rfl⟩ := h
        simp only [List.take_succ_cons, List.cons_append]
        simp only [find2]
        rw [if_neg hpair]
        have hst := ih hj' s
        simp only [List.take_succ_cons, List.cons_append] at hst
        rw [hst]
        rfl

/-- A found dollar lies inside the list. -/
theorem findDollar_some_lt :
    ∀ {t : List Char} {j : Nat}, findDollar t = some j → j < t.length := by
  intro t
  induction t with
  | nil => intro j h; simp [findDollar] at h
  | cons c t' ih =>
    intro j h
    simp only [findDollar] at h
    split at h
    · rw [Option.some.injEq] at h
      subst h
      simp
    · split at h
      · simp at h
      · rw [Option.map_eq_some'] at h
        obtain ⟨j', hj', rfl⟩ := h
        have := ih hj'
        simp only [List.length_cons]
        omega

/-- The first dollar position is unchanged when everything past it is
replaced by an arbitrary suffix. -/
theorem findDollar_take_stable :
    ∀ {t : List Char} {j : Nat}, findDollar t = some j →
      ∀ (s : List Char), findDollar (t.take (j + 1) ++ s) = some j := by
  intro t
  induction t with
  | nil => intro j h; simp [findDollar] at h
  | cons c t' ih =>
    intro j h s
    simp only [findDollar] at h
    split at h
    · rename_i hc
      rw [Option.some.injEq] at h
      subst h
      simp only [List.take_succ_cons, List.take_zero, List.cons_append,
        List.nil_append]
      simp [findDollar, hc]
    · rename_i hc
      split at h
      · simp at h
      · rename_i hnl
        rw [Option.map_eq_some'] at h
        obtain ⟨j', hj', rfl⟩ := h
        simp only [List.take_succ_cons, List.cons_append]
        simp only [findDollar]
        rw [if_neg hc, if_neg hnl, ih hj' s]
        rfl

/-- A found newline-free pair lies inside the list. -/
theorem find2NoNL_some_lt {c1 c2 : Char} :
    ∀ {t : List Char} {j : Nat}, find2NoNL t c1 c2 = some j → j + 1 < t.length := by
  intro t
  induction t with
  | nil => intro j h; simp [find2NoNL] at h
  | cons a t' ih =>
    intro j h
    cases t' with
    | nil => simp [find2NoNL] at h
    | cons b t'' =>
      simp only [find2NoNL] at h
      split at h
      · rw [Option.some.injEq] at h
        subst h
        simp
      · split at h
        · simp at h
        · rw [Option.map_eq_some'] at h
          obtain ⟨j', hj', rfl⟩ := h
          have := ih hj'
          simp only [List.length_cons] at this ⊢
          omega

/-- Like `find2_take_stable`, for the newline-sensitive search. -/
theorem find2NoNL_take_stable {c1 c2 : Char} :
    ∀ {t : List Char} {j : Nat}, find2NoNL t c1 c2 = some j →
      ∀ (s : List Char), find2NoNL (t.take (j + 2) ++ s) c1 c2 = some j := by
  intro t
  induction t with
  | nil => intro j h; simp [find2NoNL] at h
  | cons a t' ih =>
    intro j h s
    cases t' with
    | nil => simp [find2NoNL] at h
    | cons b t'' =>
      simp only [find2NoNL] at h
      split at h
      · rename_i hpair
        rw [Option.some.injEq] at h
        subst h
        simp only [List.take_succ_cons, List.take_zero, List.cons_append,
          List.nil_append]
        simp [find2NoNL, if_pos hpair]
      · rename_i hpair
        split at h
        · simp at h
        · rename_i hnl
          rw [Option.map_eq_some'] at h
          obtain ⟨j', hj', rfl⟩ := h
          simp only [List.take_succ_cons, List.cons_append]
          simp only [find2NoNL]
          rw [if_neg hpair, if_neg hnl]
          have hst := ih hj' s
          simp only [List.take_succ_cons, List.cons_append] at hst
          rw [hst]
          rfl

/-! ## Anchored-match lemmas -/

/-- The empty input matches nothing. -/
theorem matchAt_nil : matchAt [] = none := rfl

/-- A one-character input matches nothing. -/
theorem matchAt_single (a : Char) : matchAt [a] = none := rfl

/-- A position opening with neither `'$'` nor a backslash matches nothing. -/
theorem matchAt_cons_none {c : Char} (hc1 : c ≠ '$') (hc2 : c ≠ '\\')
    (l : List Char) : matchAt (c :: l) = none := by
  cases l with
  | nil => rfl
  | cons b t => simp [matchAt, hc1, hc2]

/-- Forward equation: the `$$…$$` alternative fires. -/
theorem matchAt_eq_block {t : List Char} {j : Nat} (hf : find2 t '$' '$' = some j) :
    matchAt ('$' :: '$' :: t) =
      some ('$' :: '$' :: t.take (j + 2), t.drop (j + 2)) := by
  simp [matchAt, hf]

/-- Forward equation: no closing `$$` exists, so the inline alternative
matches the two dollars with an empty body. -/
theorem matchAt_eq_ddFallback {t : List Char} (hf : find2 t '$' '$' = none) :
    matchAt ('$' :: '$' :: t) = some (['$', '$'], t) := by
  simp [matchAt, hf]

/-- Forward equation: the `$…$` alternative fires. -/
theorem matchAt_eq_inline {b : Char} {t : List Char} {j : Nat} (hb : b ≠ '$')
    (hf : findDollar (b :: t) = some j) :
    matchAt ('$' :: b :: t) =
      some ('$' :: (b :: t).take (j + 1), (b :: t).drop (j + 1)) := by
  simp [matchAt, hb, hf]

/-- Forward equation: the `\[…\]` alternative fires. -/
theorem matchAt_eq_display {t : List Char} {j : Nat}
    (hf : find2 t '\\' ']' = some j) :
    matchAt ('\\' :: '[' :: t) =
      some ('\\' :: '[' :: t.take (j + 2), t.drop (j + 2)) := by
  simp [matchAt, hf]

/-- Forward equation: the `\(…\)` alternative fires. -/
theorem matchAt_eq_paren {t : List Char} {j : Nat}
    (hf : find2NoNL t '\\' ')' = some j) :
    matchAt ('\\' :: '(' :: t) =
      some ('\\' :: '(' :: t.take (j + 2), t.drop (j + 2)) := by
  simp [matchAt, hf]

/-- Inversion of a successful anchored match. -/
theorem matchAt_spec {s m r : List Char} (h : matchAt s = some (m, r)) :
    MatchSpec s m r := by
  match s with
  | [] => simp [matchAt] at h
  | [a] => simp [matchAt] at h
  | a :: b :: t =>
    simp only [matchAt] at h
    split at h
    · rename_i ha
      subst ha
      split at h
      · rename_i hb
        subst hb
        split at h
        · rename_i j hf
          rw [Option.some.injEq, Prod.mk.injEq] at h
          obtain ⟨hm, hr⟩ := h
          subst hm
          subst hr
          exact MatchSpec.block t j hf
        · rename_i hf
          rw [Option.some.injEq, Prod.mk.injEq] at h
          obtain ⟨hm, hr⟩ := h
          subst hm
          subst hr
          exact MatchSpec.ddFallback t hf
      · rename_i hb
        split at h
        · rename_i j hf
          rw [Option.some.injEq, Prod.mk.injEq] at h
          obtain ⟨hm, hr⟩ := h
          subst hm
          subst hr
          exact MatchSpec.inline b t j hb hf
        · exact Option.noConfusion h
    · rename_i ha
      split at h
      · rename_i ha2
        subst ha2
        split at h
        · rename_i hb
          subst hb
          split at h
          · rename_i j hf
            rw [Option.some.injEq, Prod.mk.injEq] at h
            obtain ⟨hm, hr⟩ := h
            subst hm
            subst hr
            exact MatchSpec.display t j hf
          · exact Option.noConfusion h
        · rename_i hb
          split at h
          · rename_i hb2
            subst hb2
            split at h
            · rename_i j hf
              rw [Option.some.injEq, Prod.mk.injEq] at h
              obtain ⟨hm, hr⟩ := h
              subst hm
              subst hr
              exact MatchSpec.paren t j hf
            · exact Option.noConfusion h
          · exact Option.noConfusion h
      · exact Option.noConfusion h

/-- A match and its rest reassemble the input. -/
theorem matchSpec_append {s m r : List Char} (h : MatchSpec s m r) :
    m ++ r = s := by
  cases h with
  | block t j hf => simp [List.cons_append, List.take_append_drop]
  | ddFallback t hf => rfl
  | inline b t j hb hf => simp [List.cons_append, List.take_append_drop]
  | display t j hf => simp [List.cons_append, List.take_append_drop]
  | paren t j hf => simp [List.cons_append, List.take_append_drop]

/-- The rest of a match is strictly shorter than the input. -/
theorem matchSpec_rest_lt {s m r : List Char} (h : MatchSpec s m r) :
    r.length < s.length := by
  cases h with
  | block t j hf =>
    simp only [List.length_drop, List.length_cons]
    omega
  | ddFallback t hf =>
    simp only [List.length_cons]
    omega
  | inline b t j hb hf =>
    simp only [List.length_drop, List.length_cons]
    omega
  | display t j hf =>
    simp only [List.length_drop, List.length_cons]
    omega
  | paren t j hf =>
    simp only [List.length_drop, List.length_cons]
    omega

/-- Matched segments are nonempty. -/
theorem matchSpec_ne_nil {s m r : List Char} (h : MatchSpec s m r) : m ≠ [] := by
  cases h <;> simp

/-- A bare `$$` segment is matched only when no `$$` pair remains in the
rest of the input. -/
theorem matchSpec_ddollar {s m r : List Char} (h : MatchSpec s m r)
    (hm : m = ['$', '$']) : find2 r '$' '$' = none := by
  cases h with
  | ddFallback t hf => exact hf
  | block t j hf =>
    exfalso
    have hlt := find2_some_lt hf
    have hlen := congrArg List.length hm
    simp only [List.length_cons, List.length_take, List.length_nil] at hlen
    omega
  | inline b t j hb hf =>
    exfalso
    rw [List.take_succ_cons] at hm
    simp only [List.cons.injEq] at hm
    exact hb hm.2.1
  | display t j hf =>
    exfalso
    simp only [List.cons.injEq] at hm
    exact absurd hm.1 (by decide)
  | paren t j hf =>
    exfalso
    simp only [List.cons.injEq] at hm
    exact absurd hm.1 (by decide)

/-- Every matched segment rescans to itself in front of any suffix (for the
bare `$$` segment, any `$$`-free suffix). -/
theorem matchSpec_segOK {s m r : List Char} (h : MatchSpec s m r) : SegOK m := by
  cases h with
  | block t j hf =>
    intro s' hs'
    have hlen : (t.take (j + 2)).length = j + 2 := by
      have := find2_some_lt hf
      simp only [List.length_take]
      omega
    have heq := matchAt_eq_block (find2_take_stable hf s')
    rw [List.take_left' hlen, List.drop_left' hlen] at heq
    simpa [List.cons_append] using heq
  | ddFallback t hf =>
    intro s' hs'
    have hnone : find2 s' '$' '$' = none := hs' rfl
    have heq := matchAt_eq_ddFallback hnone
    simpa [List.cons_append] using heq
  | inline b t j hb hf =>
    intro s' _
    have hlen : (b :: t.take j).length = j + 1 := by
      have hlt := findDollar_some_lt hf
      simp only [List.length_cons] at hlt
      simp only [List.length_cons, List.length_take]
      omega
    have hfd : findDollar (b :: (t.take j ++ s')) = some j := by
      have hst := findDollar_take_stable hf s'
      rw [List.take_succ_cons] at hst
      simpa [List.cons_append] using hst
    have heq := matchAt_eq_inline hb hfd
    have htake : ((b :: t.take j) ++ s').take (j + 1) = b :: t.take j :=
      List.take_left' hlen
    have hdrop : ((b :: t.take j) ++ s').drop (j + 1) = s' :=
      List.drop_left' hlen
    simp only [← List.cons_append] at heq
    rw [htake, hdrop] at heq
    simpa [List.cons_append, List.take_succ_cons] using heq
  | display t j hf =>
    intro s' hs'
    have hlen : (t.take (j + 2)).length = j + 2 := by
      have := find2_some_lt hf
      simp only [List.length_take]
      omega
    have heq := matchAt_eq_display (find2_take_stable hf s')
    rw [List.take_left' hlen, List.drop_left' hlen] at heq
    simpa [List.cons_append] using heq
  | paren t j hf =>
    intro s' hs'
    have hlen : (t.take (j + 2)).length = j + 2 := by
      have := find2NoNL_some_lt hf
      simp only [List.length_take]
      omega
    have heq := matchAt_eq_paren (find2NoNL_take_stable hf s')
    rw [List.take_left' hlen, List.drop_left' hlen] at heq
    simpa [List.cons_append] using heq

/-- A segment satisfying `SegOK` is nonempty. -/
theorem segOK_ne_nil {d : List Char} (h : SegOK d) : d ≠ [] := by
  intro hd
  subst hd
  have := h [] (fun hdd => by simp at hdd)
  simp [matchAt_nil] at this

/-! ## Global-scan lemmas -/

/-- The scan of the empty input is empty, whatever the fuel. -/
theorem scanAux_nil (fuel : Nat) : scanAux fuel [] = [] := by
  cases fuel <;> rfl

/-- Scan step on a successful match. -/
theorem scanAux_succ_some {fuel : Nat} {s m r : List Char}
    (h : matchAt s = some (m, r)) :
    scanAux (fuel + 1) s = m :: scanAux fuel r := by
  cases s with
  | nil => rw [matchAt_nil] at h; exact Option.noConfusion h
  | cons c t => simp [scanAux, h]

/-- Scan step on a failed match: skip one character. -/
theorem scanAux_succ_none_cons {fuel : Nat} {c : Char} {t : List Char}
    (h : matchAt (c :: t) = none) :
    scanAux (fuel + 1) (c :: t) = scanAux fuel t := by
  simp [scanAux, h]

/-- Any sufficient fuel computes the same scan. -/
theorem scanAux_congr :
    ∀ (f g : Nat) (s : List Char), s.length ≤ f → s.length ≤ g →
      scanAux f s = scanAux g s := by
  intro f
  induction f with
  | zero =>
    intro g s hf _
    have hs : s = [] := List.eq_nil_of_length_eq_zero (Nat.le_zero.mp hf)
    subst hs
    rw [scanAux_nil, scanAux_nil]
  | succ n ih =>
    intro g s hf hg
    cases s with
    | nil => rw [scanAux_nil, scanAux_nil]
    | cons c t =>
      cases g with
      | zero => simp at hg
      | succ m =>
        cases hm : matchAt (c :: t) with
        | some mr =>
          obtain ⟨mm, r⟩ := mr
          have hlt : r.length < (c :: t).length :=
            matchSpec_rest_lt (matchAt_spec hm)
          have h1 : r.length ≤ n := by
            simp only [List.length_cons] at hf hlt
            omega
          have h2 : r.length ≤ m := by
            simp only [List.length_cons] at hg hlt
            omega
          rw [scanAux_succ_some hm, scanAux_succ_some hm, ih m r h1 h2]
        | none =>
          have h1 : t.length ≤ n := by
            simp only [List.length_cons] at hf
            omega
          have h2 : t.length ≤ m := by
            simp only [List.length_cons] at hg
            omega
          rw [scanAux_succ_none_cons hm, scanAux_succ_none_cons hm, ih m t h1 h2]

/-- The empty input has no matches. -/
theorem scanMatches_nil : scanMatches [] = [] := rfl

/-- Unfold equation of the global scan on a successful match. -/
theorem scanMatches_eq_some {s m r : List Char} (h : matchAt s = some (m, r)) :
    scanMatches s = m :: scanMatches r := by
  cases s with
  | nil => rw [matchAt_nil] at h; exact Option.noConfusion h
  | cons c t =>
    have hlt : r.length < (c :: t).length := matchSpec_rest_lt (matchAt_spec h)
    have hle : r.length ≤ t.length := by
      simp only [List.length_cons] at hlt
      omega
    unfold scanMatches
    simp only [List.length_cons]
    rw [scanAux_succ_some h, scanAux_congr t.length r.length r hle le_rfl]

/-- Unfold equation of the global scan on a failed match. -/
theorem scanMatches_eq_none {c : Char} {t : List Char}
    (h : matchAt (c :: t) = none) : scanMatches (c :: t) = scanMatches t := by
  unfold scanMatches
  simp only [List.length_cons]
  rw [scanAux_succ_none_cons h]

/-- Every match of a `$$`-free input is `$$`-free. -/
theorem scanMatches_noPair :
    ∀ (n : Nat) (s : List Char), s.length ≤ n → find2 s '$' '$' = none →
      ∀ e ∈ scanMatches s, find2 e '$' '$' = none := by
  intro n
  induction n with
  | zero =>
    intro s hn _ e he
    have hs : s = [] := List.eq_nil_of_length_eq_zero (Nat.le_zero.mp hn)
    subst hs
    rw [scanMatches_nil] at he
    simp at he
  | succ n ih =>
    intro s hn hs e he
    cases hm : matchAt s with
    | some mr =>
      obtain ⟨m, r⟩ := mr
      have hspec := matchAt_spec hm
      have happ := matchSpec_append hspec
      have hlt := matchSpec_rest_lt hspec
      have hs' : find2 (m ++ r) '$' '$' = none := by rw [happ]; exact hs
      rw [scanMatches_eq_some hm] at he
      rcases List.mem_cons.mp he with rfl | he'
      · exact find2_append_left_none hs'
      · have hr : find2 r '$' '$' = none := find2_append_right_none hs'
        exact ih r (by omega) hr e he'
    | none =>
      cases s with
      | nil =>
        rw [scanMatches_nil] at he
        simp at he
      | cons c t =>
        rw [scanMatches_eq_none hm] at he
        have ht : find2 t '$' '$' = none := find2_cons_none hs
        have htn : t.length ≤ n := by
          simp only [List.length_cons] at hn
          omega
        exact ih t htn ht e he

/-- The scan output always satisfies the rescan invariant. -/
theorem scanMatches_joinGood :
    ∀ (n : Nat) (s : List Char), s.length ≤ n → JoinGood (scanMatches s) := by
  intro n
  induction n with
  | zero =>
    intro s hn
    have hs : s = [] := List.eq_nil_of_length_eq_zero (Nat.le_zero.mp hn)
    subst hs
    rw [scanMatches_nil]
    trivial
  | succ n ih =>
    intro s hn
    cases hm : matchAt s with
    | some mr =>
      obtain ⟨m, r⟩ := mr
      have hspec := matchAt_spec hm
      have hlt := matchSpec_rest_lt hspec
      rw [scanMatches_eq_some hm]
      refine ⟨matchSpec_segOK hspec, ?_, ih r (by omega)⟩
      intro hdd e he
      have hr : find2 r '$' '$' = none := matchSpec_ddollar hspec hdd
      exact scanMatches_noPair r.length r le_rfl hr e he
    | none =>
      cases s with
      | nil =>
        rw [scanMatches_nil]
        trivial
      | cons c t =>
        rw [scanMatches_eq_none hm]
        have htn : t.length ≤ n := by
          simp only [List.length_cons] at hn
          omega
        exact ih t htn

/-- Rescanning a blank-line join of well-behaved segments recovers exactly
the segment list. -/
theorem scanMatches_joinSep :
    ∀ (D : List (List Char)), JoinGood D →
      scanMatches (joinSep ['\n', '\n'] D) = D := by
  intro D
  induction D with
  | nil => exact fun _ => scanMatches_nil
  | cons d D' ih =>
    intro hg
    obtain ⟨hseg, hdd, hg'⟩ := hg
    cases D' with
    | nil =>
      have hmatch : matchAt d = some (d, []) := by
        have hm := hseg [] (fun _ => rfl)
        rwa [List.append_nil] at hm
      show scanMatches d = [d]
      rw [scanMatches_eq_some hmatch, scanMatches_nil]
    | cons d' t =>
      have hj := ih hg'
      have hsuffix : d = ['$', '$'] →
          find2 ('\n' :: '\n' :: joinSep ['\n', '\n'] (d' :: t)) '$' '$' = none := by
        intro hd
        exact find2_nl2_none (find2_joinSep_none (hdd hd))
      have hmatch := hseg ('\n' :: '\n' :: joinSep ['\n', '\n'] (d' :: t)) hsuffix
      rw [joinSep_cons_cons]
      have hform : d ++ ['\n', '\n'] ++ joinSep ['\n', '\n'] (d' :: t) =
          d ++ '\n' :: '\n' :: joinSep ['\n', '\n'] (d' :: t) := by simp
      rw [hform, scanMatches_eq_some hmatch]
      congr 1
      rw [scanMatches_eq_none (matchAt_cons_none (by decide) (by decide) _),
        scanMatches_eq_none (matchAt_cons_none (by decide) (by decide) _)]
      exact hj

/-! ## Duplicate-filter lemmas -/

/-- The duplicate filter's worker selects a sublist. -/
theorem dedupGo_sublist :
    ∀ (t : List (List Char)) (prev : List Char), List.Sublist (dedupGo prev t) t := by
  intro t
  induction t with
  | nil => intro prev; exact List.Sublist.refl []
  | cons b t' ih =>
    intro prev
    simp only [dedupGo]
    split
    · exact (ih b).cons b
    · exact (ih b).cons₂ b

/-- The duplicate filter selects a sublist. -/
theorem dedupConsecutive_sublist (M : List (List Char)) :
    List.Sublist (dedupConsecutive M) M := by
  cases M with
  | nil => exact List.Sublist.refl []
  | cons a t => exact (dedupGo_sublist t a).cons₂ a

/-- The rescan invariant restricts along sublists. -/
theorem joinGood_sublist :
    ∀ {D' D : List (List Char)}, List.Sublist D' D → JoinGood D → JoinGood D' := by
  intro D' D hsub
  induction hsub with
  | slnil => exact fun h => h
  | cons a _ ih => exact fun h => ih h.2.2
  | cons₂ a hs ih =>
    intro h
    exact ⟨h.1, fun hdd e he => h.2.1 hdd e (hs.subset he), ih h.2.2⟩

/-- The duplicate filter's output has no two adjacent equal elements. -/
theorem dedupGo_adjDistinct :
    ∀ (t : List (List Char)) (prev : List Char),
      AdjDistinct (prev :: dedupGo prev t) := by
  intro t
  induction t with
  | nil => intro prev; trivial
  | cons b t' ih =>
    intro prev
    simp only [dedupGo]
    split
    · rename_i hb
      subst hb
      exact ih b
    · rename_i hb
      exact ⟨fun heq => hb heq.symm, ih b⟩

/-- The duplicate filter's output is adjacent-distinct. -/
theorem dedupConsecutive_adjDistinct (M : List (List Char)) :
    AdjDistinct (dedupConsecutive M) := by
  cases M with
  | nil => trivial
  | cons a t => exact dedupGo_adjDistinct t a

/-- On an adjacent-distinct list the worker is the identity. -/
theorem dedupGo_of_adjDistinct :
    ∀ (t : List (List Char)) (prev : List Char),
      AdjDistinct (prev :: t) → dedupGo prev t = t := by
  intro t
  induction t with
  | nil => intro prev _; rfl
  | cons b t' ih =>
    intro prev h
    simp only [dedupGo]
    rw [if_neg (fun hb => h.1 hb.symm), ih b h.2]

/-- On an adjacent-distinct list the duplicate filter is the identity. -/
theorem dedupConsecutive_of_adjDistinct (M : List (List Char))
    (h : AdjDistinct M) : dedupConsecutive M = M := by
  cases M with
  | nil => rfl
  | cons a t =>
    simp only [dedupConsecutive]
    rw [dedupGo_of_adjDistinct t a h]

/-- The spec's neighbour-comparing duplicate filter equals the source's
original-predecessor filter. -/
theorem specDedup_eq :
    ∀ (M : List (List Char)), specDedup M = dedupConsecutive M := by
  intro M
  induction M with
  | nil => rfl
  | cons a t ih =>
    cases t with
    | nil => rfl
    | cons b t' =>
      by_cases hab : a = b
      · subst hab
        have lhs : specDedup (a :: a :: t') = specDedup (a :: t') := by
          simp [specDedup]
        have rhs : dedupConsecutive (a :: a :: t') = a :: dedupGo a t' := by
          simp [dedupConsecutive, dedupGo]
        rw [lhs, rhs, ih]
        rfl
      · have lhs : specDedup (a :: b :: t') = a :: specDedup (b :: t') := by
          simp [specDedup, hab]
        have rhs : dedupConsecutive (a :: b :: t') = a :: b :: dedupGo b t' := by
          simp [dedupConsecutive, dedupGo, Ne.symm hab]
        rw [lhs, rhs, ih]
        rfl

/-! ## Cleanup: final theorems (claims C5 and C6) -/

/-- A join headed by a nonempty segment is nonempty. -/
theorem joinSep_ne_nil {d : List Char} (hd : d ≠ []) (t : List (List Char)) :
    joinSep ['\n', '\n'] (d :: t) ≠ [] := by
  cases t with
  | nil => exact hd
  | cons d' t' =>
    rw [joinSep_cons_cons]
    intro hcontra
    rw [List.append_eq_nil, List.append_eq_nil] at hcontra
    exact hd hcontra.1.1

/-- Unfold equation of `cleanChars` when the regex matched something. -/
theorem cleanChars_of_matches {raw : List Char} (h : scanMatches raw ≠ []) :
    cleanChars raw = joinSep ['\n', '\n'] (dedupConsecutive (scanMatches raw)) := by
  have hraw : raw ≠ [] := by
    intro hr
    subst hr
    exact h scanMatches_nil
  unfold cleanChars
  rw [if_neg hraw, if_neg h]

/-- The cleanup is idempotent on inputs that contain at least one
math-delimited segment. -/
theorem cleanChars_idem {raw : List Char} (h : scanMatches raw ≠ []) :
    cleanChars (cleanChars raw) = cleanChars raw := by
  have hgoodM : JoinGood (scanMatches raw) :=
    scanMatches_joinGood raw.length raw le_rfl
  have hsub : List.Sublist (dedupConsecutive (scanMatches raw)) (scanMatches raw) :=
    dedupConsecutive_sublist (scanMatches raw)
  have hgoodD : JoinGood (dedupConsecutive (scanMatches raw)) :=
    joinGood_sublist hsub hgoodM
  have hDne : dedupConsecutive (scanMatches raw) ≠ [] := by
    cases hM : scanMatches raw with
    | nil => exact absurd hM h
    | cons a t => simp [dedupConsecutive]
  have hscan :
      scanMatches (joinSep ['\n', '\n'] (dedupConsecutive (scanMatches raw))) =
        dedupConsecutive (scanMatches raw) :=
    scanMatches_joinSep (dedupConsecutive (scanMatches raw)) hgoodD
  have houtne : joinSep ['\n', '\n'] (dedupConsecutive (scanMatches raw)) ≠ [] := by
    cases hD : dedupConsecutive (scanMatches raw) with
    | nil => exact absurd hD hDne
    | cons d t =>
      have hgd : SegOK d := by
        have := hgoodD
        rw [hD] at this
        exact this.1
      exact joinSep_ne_nil (segOK_ne_nil hgd) t
  rw [cleanChars_of_matches h]
  unfold cleanChars
  rw [if_neg houtne, hscan, if_neg hDne,
    dedupConsecutive_of_adjDistinct _ (dedupConsecutive_adjDistinct (scanMatches raw))]

/-- Claim C5 as stated is false: the input "a$b" contains no math-delimited
segment, and the fallback returns it *unchanged* (it already contains a
dollar) instead of wrapping it in `$` delimiters as the claim requires. -/
theorem c5_counterexample :
    cleanBlackboardContent "a$b" = "a$b" ∧
    cleanupClaimed ("a$b" : String).data = ("$a$b$" : String).data ∧
    cleanBlackboardContent "a$b" ≠ "$a$b$" := by decide

/-- Claim C5 (amended): the cleanup extracts all math-delimited segments in
order, drops consecutive exact duplicates and joins them with blank lines;
with no segment, the trimmed label-stripped text is returned empty when
nothing remains, unchanged when it already contains a `'$'`, and wrapped in
`$` delimiters otherwise. -/
theorem c5_cleanup_amended (raw : String) :
    cleanBlackboardContent raw = String.mk (cleanupAmendedSpec raw.data) := by
  unfold cleanBlackboardContent
  congr 1
  show cleanChars raw.data = cleanupAmendedSpec raw.data
  by_cases hnil : raw.data = []
  · rw [hnil]
    rfl
  · unfold cleanChars cleanupAmendedSpec
    rw [if_neg hnil]
    by_cases hms : scanMatches raw.data = []
    · rw [if_pos hms, if_pos hms]
      rfl
    · rw [if_neg hms, if_neg hms, specDedup_eq]

/-- Claim C6: re-invoking the board-text cleanup on the output of a cleanup
of math-delimited text (text with at least one regex match) returns it
unchanged. -/
theorem c6_cleanup_idempotent (raw : String) (h : scanMatches raw.data ≠ []) :
    cleanBlackboardContent (cleanBlackboardContent raw) =
      cleanBlackboardContent raw := by
  unfold cleanBlackboardContent
  congr 1
  show cleanChars (cleanChars raw.data) = cleanChars raw.data
  exact cleanChars_idem h

/-- Witness for C6 at an explicit math-delimited input. -/
theorem c6_cleanup_idempotent_witness :
    scanMatches ("$a$ $$b$$" : String).data ≠ [] ∧
    cleanBlackboardContent (cleanBlackboardContent "$a$ $$b$$") =
      cleanBlackboardContent "$a$ $$b$$" :=
  ⟨by decide, c6_cleanup_idempotent "$a$ $$b$$" (by decide)⟩
